import Mathlib

/-!
Verification of the wow-dev-mcp dataset-cache and search core.

This file embeds, as executable Lean definitions, the pure core of the
repository: the identifier normalizer `wordifyAPI`, the query tokenizer and
round-robin result merge of `searchApiNames`, the all-or-nothing partition
population of the refreshable dataset caches, the single-flight page cache
state machine, the two lua-file line parsers, and the translations lookup
`get_string_translations`.  JavaScript strings are modelled as Lean strings
over their character lists; the ASCII-relevant behaviour of the JS regexes
and of `toLowerCase` is embedded exactly (the regex classes `[A-Z]` and `\w`
are ASCII-only in JS as well).
-/

namespace WowDevMcp

/-! ## Character classes

`jsWs` embeds the JavaScript regex class `\s` (also used by `String.trim`):
ASCII whitespace plus the Unicode space separators, LS/PS and the BOM. -/

def jsWs (c : Char) : Bool :=
  c.toNat = 0x20 || c.toNat = 0x9 || c.toNat = 0xa || c.toNat = 0xb ||
  c.toNat = 0xc || c.toNat = 0xd || c.toNat = 0xa0 || c.toNat = 0x1680 ||
  (0x2000 ≤ c.toNat && c.toNat ≤ 0x200a) || c.toNat = 0x2028 ||
  c.toNat = 0x2029 || c.toNat = 0x202f || c.toNat = 0x205f ||
  c.toNat = 0x3000 || c.toNat = 0xfeff

/-- Embeds the JS regex class `[A-Z]` (ASCII uppercase only). -/
def isUpperA (c : Char) : Bool :=
  65 ≤ c.toNat && c.toNat ≤ 90

/-- Embeds the JS regex class `\w` = `[A-Za-z0-9_]`. -/
def isWordChar (c : Char) : Bool :=
  (65 ≤ c.toNat && c.toNat ≤ 90) || (97 ≤ c.toNat && c.toNat ≤ 122) ||
  (48 ≤ c.toNat && c.toNat ≤ 57) || c.toNat = 95

/-- Embeds `String.prototype.toLowerCase` on the ASCII range: `A`-`Z` map to
`a`-`z`, every other character is returned unchanged (no non-ASCII character
lowercases into the ASCII range, so this is adequate for the `[A-Z]` regex
reasoning below). -/
def jsToLower (c : Char) : Char :=
  if 65 ≤ c.toNat ∧ c.toNat ≤ 90 then Char.ofNat (c.toNat + 32) else c

/-! ## The text normalizer `wordifyAPI`

Source (`GlobalAPIDocs`):
```
const wordifyAPI = (name: string) => {
  const [namespace, apiName] = name.split(".", 2)
  const toWords = (string: string) =>
    string
      .replace(/([A-Z]+)/g, " $1")
      .replace(/[._]/g, " ")
      .replace(/\s+/g, " ")
      .trim().toLowerCase()
  if (!apiName) { return toWords(namespace) }
  else { return namespace.concat(" ", toWords(apiName)) }
}
```
-/

/-- Embeds `.replace(/([A-Z]+)/g, " $1")`: a space is inserted before every
maximal run of ASCII capitals.  The flag records whether the previous
character was a capital. -/
def addCapsAux : Bool → List Char → List Char
  | _, [] => []
  | prevUp, c :: cs =>
    if isUpperA c then
      if prevUp then c :: addCapsAux true cs
      else ' ' :: c :: addCapsAux true cs
    else c :: addCapsAux false cs

def addCaps (l : List Char) : List Char := addCapsAux false l

/-- Embeds `.replace(/[._]/g, " ")`. -/
def mapDots (l : List Char) : List Char :=
  l.map fun c => if c = '.' ∨ c = '_' then ' ' else c

/-- Embeds `.replace(/\s+/g, " ")`: every maximal run of `\s` characters is
replaced by a single space.  The flag records whether the previous character
was whitespace (i.e. we are inside a run that already emitted its space). -/
def collapseAux : Bool → List Char → List Char
  | _, [] => []
  | prevWs, c :: cs =>
    if jsWs c then
      if prevWs then collapseAux true cs
      else ' ' :: collapseAux true cs
    else c :: collapseAux false cs

def collapseWs (l : List Char) : List Char := collapseAux false l

/-- Drops trailing `\s` characters (the right half of `String.trim`). -/
def dropTrailingWs : List Char → List Char
  | [] => []
  | c :: cs =>
    match dropTrailingWs cs with
    | [] => if jsWs c then [] else [c]
    | rest => c :: rest

/-- Embeds `String.prototype.trim`. -/
def trimWs (l : List Char) : List Char :=
  dropTrailingWs (l.dropWhile jsWs)

/-- Embeds the inner `toWords` closure of `wordifyAPI`. -/
def toWords (l : List Char) : List Char :=
  (trimWs (collapseWs (mapDots (addCaps l)))).map jsToLower

/-- Text before the first `.` — the first element of `name.split(".", 2)`. -/
def upToDot (l : List Char) : List Char := l.takeWhile (· ≠ '.')

/-- The second element of `name.split(".", 2)`: the text between the first
and second dots (JS `split` with a limit truncates, so anything from the
second dot on is dropped), or `none` when the string has no dot. -/
def afterDot (l : List Char) : Option (List Char) :=
  match l.dropWhile (· ≠ '.') with
  | [] => none
  | _ :: rest => some (upToDot rest)

/-- Embeds `wordifyAPI`.  The `some []` branch mirrors the JS truthiness
test `if (!apiName)`: an empty second part is falsy, so the function falls
back to `toWords(namespace)` just as when there is no dot at all. -/
def wordifyAPI (name : String) : String :=
  match afterDot name.data with
  | none => ⟨toWords (upToDot name.data)⟩
  | some [] => ⟨toWords (upToDot name.data)⟩
  | some api => ⟨upToDot name.data ++ ' ' :: toWords api⟩

/-! ## Query tokenizer and round-robin merge of `searchApiNames` -/

/-- The separator class of `query.split(/[\s|-]+/)`. -/
def isSepQ (c : Char) : Bool := jsWs c || c = '|' || c = '-'

/-- Splits into maximal runs of non-separator characters.  This equals the
source's `split(/[\s|-]+/).filter((q) => q.trim().length > 0)`: splitting on
runs and dropping empty pieces leaves exactly the maximal separator-free
runs, and those contain no whitespace, so the `trim` in the filter never
changes them. -/
def tokenizeAux : List Char → List Char → List (List Char)
  | [], cur => if cur.isEmpty then [] else [cur.reverse]
  | c :: cs, cur =>
    if isSepQ c then
      if cur.isEmpty then tokenizeAux cs []
      else cur.reverse :: tokenizeAux cs []
    else tokenizeAux cs (c :: cur)

def tokenize (s : String) : List String :=
  (tokenizeAux s.data []).map fun l => ⟨l⟩

/-- Inner loop of the round-robin interleave: for rank position `i`, visit
each sub-query result list in order and append its `i`-th entry unless it
was already emitted.  The source keeps a `seenResults` set alongside
`finalResults`; both start empty and are extended together, so membership in
the accumulator is exactly membership in the seen set. -/
def rrInner {α : Type} [DecidableEq α] (lists : List (List α)) (i : Nat)
    (acc : List α) : List α :=
  lists.foldl (fun acc l =>
    match l.get? i with
    | some x => if x ∈ acc then acc else acc ++ [x]
    | none => acc) acc

/-- Embeds `Math.max(...queryResults.map((r) => r.length))` as a loop bound:
for a nonempty family this is the maximum length, and for the empty family
`Math.max()` is `-Infinity`, so the `for` loop body never runs — the same
zero iterations that bound `0` produces. -/
def maxLen {α : Type} (lists : List (List α)) : Nat :=
  lists.foldl (fun n l => max n l.length) 0

/-- The round-robin de-duplicating interleave of `searchApiNames`. -/
def roundRobinMerge {α : Type} [DecidableEq α] (lists : List (List α)) :
    List α :=
  (List.range (maxLen lists)).foldl (fun acc i => rrInner lists i acc) []

/-- Embeds `searchApiNames`.  `rank` abstracts `findSimilarGlobals` applied
to the generated search objects (a call into the external `fuzzysort`
library returning ranked keys); `cachedWordify` is a memoized `wordifyAPI`,
so applying `wordifyAPI` directly is equivalent. -/
def searchApiNames (rank : String → List String) (query : String) :
    List String :=
  let queries := tokenize query
  let queryResults := queries.map fun q => rank (wordifyAPI q)
  (roundRobinMerge queryResults).take 100

/-! ## Refreshable dataset cache

Both dataset caches (`cachedGlobalsByGameVersion` in `GlobalAPIDocs` and
`globalStringsByFlavorMap` in `GlobalStrings.ts`) populate a record keyed by
every supported game-client flavor by fetching the flavors sequentially
(`for ... of SupportedClientVersions` / `Effect.forEach`); the first failing
fetch fails the whole population effect. -/

inductive GameFlavor : Type
  | mainline
  | mists
  | vanilla
deriving DecidableEq, Repr

/-- A fully populated snapshot: one dataset per partition (flavor). -/
structure Snapshot (δ : Type) : Type where
  mainline : δ
  mists : δ
  vanilla : δ
deriving DecidableEq, Repr

def Snapshot.get {δ : Type} (s : Snapshot δ) : GameFlavor → δ
  | .mainline => s.mainline
  | .mists => s.mists
  | .vanilla => s.vanilla

/-- Embeds the population effect: fetch each flavor in declaration order,
failing as a whole on the first failing fetch (the `yield*` inside the loop
short-circuits the surrounding `Effect.gen`). -/
def populateAll {δ ε : Type} (fetch : GameFlavor → Except ε δ) :
    Except ε (Snapshot δ) :=
  match fetch .mainline with
  | .error e => .error e
  | .ok m =>
    match fetch .mists with
    | .error e => .error e
    | .ok mi =>
      match fetch .vanilla with
      | .error e => .error e
      | .ok v => .ok ⟨m, mi, v⟩

/-- State owned by the refreshable cache: the currently published snapshot
(if any) and the last refresh error. -/
structure CacheState (δ ε : Type) : Type where
  current : Option (Snapshot δ)
  lastError : Option ε
deriving DecidableEq, Repr

/-- Modelled from the spec: the snapshot swap performed by `Resource.auto`
(a combinator of the external effect library, not part of this repository)
around the population effect above.  Per the spec, on success the new
snapshot is swapped in; if the cycle fails, "the existing snapshot is
retained unchanged and the failure is recorded as `lastError`". -/
def refreshCycle {δ ε : Type} (st : CacheState δ ε)
    (fetch : GameFlavor → Except ε δ) : CacheState δ ε :=
  match populateAll fetch with
  | .ok snap => ⟨some snap, none⟩
  | .error e => ⟨st.current, some e⟩

/-- A concrete refresh attempt whose `vanilla` fetch fails while `mainline`
and `mists` succeed. -/
def fetchVanillaFails : GameFlavor → Except String Nat
  | .mainline => .ok 1
  | .mists => .ok 2
  | .vanilla => .error "boom"

/-- A concrete previously published cache state. -/
def prevState : CacheState Nat String := ⟨some ⟨10, 20, 30⟩, none⟩

/-! ## Single-flight TTL page cache

Modelled from the spec: `pageContentCache` is built with `Cache.make` from
the external effect library (not part of this repository); the spec states
that for N concurrent `get` calls on the same uncached key the loader runs
exactly once and every caller receives the result of that one in-flight
load.  The model below is the per-key state machine for one key: a `get`
from an unpopulated state starts the loader and registers the caller as a
waiter, a `get` during the in-flight load only registers the caller, and
the completion of the load delivers its single result to every waiter
(caching it only on success — a failed load is not cached). -/

inductive SFEntry (ρ : Type) : Type
  | inflight (waiters : List Nat)
  | cached (r : ρ)
deriving DecidableEq, Repr

structure SFState (ρ : Type) : Type where
  entry : Option (SFEntry ρ)
  loaderCalls : Nat
  responses : List (Nat × ρ)
deriving DecidableEq, Repr

/-- The unpopulated state for the key: no entry, loader never invoked. -/
def sfInit {ρ : Type} : SFState ρ := ⟨none, 0, []⟩

/-- One `get` call by caller `c`. -/
def sfGet {ρ : Type} (s : SFState ρ) (c : Nat) : SFState ρ :=
  match s.entry with
  | none =>
    { s with entry := some (.inflight [c]), loaderCalls := s.loaderCalls + 1 }
  | some (.inflight ws) => { s with entry := some (.inflight (c :: ws)) }
  | some (.cached r) => { s with responses := (c, r) :: s.responses }

/-- Settlement of the in-flight load with result `r`: every waiter receives
`r`; the result is kept in the cache only when the load succeeded. -/
def sfComplete {ρ : Type} (s : SFState ρ) (r : ρ) (success : Bool) :
    SFState ρ :=
  match s.entry with
  | some (.inflight ws) =>
    { s with
      entry := if success then some (.cached r) else none,
      responses := (ws.map fun c => (c, r)) ++ s.responses }
  | _ => s

/-- N concurrent `get` calls arriving in some order `cs`. -/
def sfArriveAll {ρ : Type} (cs : List Nat) (s : SFState ρ) : SFState ρ :=
  cs.foldl sfGet s

/-! ## Ingestion line parsers

`fetchAndParseApiGlobalsByGameVersion` (GlobalAPI.lua):
```
for (const line of text.split("\n")) {
  if (line.match(/[{}]/)) continue
  if (line.trim().length === 0) continue
  const match = line.match(/"(\w+)"/)
  if (match) { collectedGlobals.push(match[1]) }
}
```

`createTranslationMapForFlavor` (GlobalStrings):
```
rawText.split("\n").forEach((line) => {
  const match = line.match(/^(?:_G\[)?(.+?)\s*=\s*"(.+?)";?$/)
  if (match) { globalStringMapping[match[1]] = match[2] }
})
```
-/

/-- Matcher for the tail `"(.+?)";?$` of the global-strings regex, applied
to the text after the opening quote: the lazy group takes characters (any,
except line terminators, which `.` cannot match) up to the first closing
quote followed by exactly `;` or the end of the line. -/
def gsValueAux (acc : List Char) : List Char → Option (List Char)
  | [] => none
  | c :: rest =>
    if c = '"' then
      if acc ≠ [] ∧ (rest = [] ∨ rest = [';']) then some acc.reverse
      else gsValueAux (c :: acc) rest
    else if c = '\r' ∨ c = '\n' then none
    else gsValueAux (c :: acc) rest

/-- Matcher for `\s*=\s*"(.+?)";?$`, the part of the global-strings regex
after the key group.  Both `\s*` are followed by a non-whitespace literal,
so consuming greedily is exact. -/
def gsAfterKey (cs : List Char) : Option (List Char) :=
  match cs.dropWhile jsWs with
  | '=' :: cs2 =>
    match cs2.dropWhile jsWs with
    | '"' :: t => gsValueAux [] t
    | _ => none
  | _ => none

/-- Lazy matcher for `(.+?)\s*=\s*"(.+?)";?$`: the key group grows one
character at a time (shortest first, as `+?` backtracks), and stops growing
at a line terminator, which `.` cannot match. -/
def gsKeyVal (acc : List Char) : List Char → Option (List Char × List Char)
  | [] => none
  | c :: rest =>
    if c = '\r' ∨ c = '\n' then none
    else
      match gsAfterKey rest with
      | some v => some ((c :: acc).reverse, v)
      | none => gsKeyVal (c :: acc) rest

/-- Embeds one line of the global-strings parser: the whole regex
`^(?:_G\[)?(.+?)\s*=\s*"(.+?)";?$`, returning the captured key and value.
The optional prefix group is greedy: it is consumed when present and the
bare match is retried only if that fails. -/
def gsMatchLine (line : List Char) : Option (List Char × List Char) :=
  match line with
  | '_' :: 'G' :: '[' :: rest =>
    match gsKeyVal [] rest with
    | some kv => some kv
    | none => gsKeyVal [] line
  | _ => gsKeyVal [] line

/-- Scan for the first match of `/"(\w+)"/`: at each start position, an
opening quote followed by a nonempty maximal run of word characters and a
closing quote.  (Backtracking the greedy `\w+` cannot help: a shorter run
ends on a word character, never on `"`.) -/
def firstQuotedWord : List Char → Option (List Char)
  | [] => none
  | c :: rest =>
    if c = '"' then
      match rest.dropWhile isWordChar with
      | '"' :: _ =>
        if (rest.takeWhile isWordChar).isEmpty then firstQuotedWord rest
        else some (rest.takeWhile isWordChar)
      | _ => firstQuotedWord rest
    else firstQuotedWord rest

/-- Embeds one line of the global-API parser: lines containing a brace are
skipped, blank (all-whitespace) lines are skipped, and otherwise the first
double-quoted word is collected (if any). -/
def apiLineGlobal (line : List Char) : Option (List Char) :=
  if line.any fun c => c = '{' ∨ c = '}' then none
  else if (trimWs line).isEmpty then none
  else firstQuotedWord line

/-! ## Translations lookup

The snapshot for the chosen flavor (`clientGlobals`) is a plain JS object
literal, so the bracket lookup `clientGlobals[key]` in the
`get_wow_global_string_translations` handler searches the object's own
properties first and then `Object.prototype`.  Every own value is a
(locale → string) record object, hence truthy; every inherited
`Object.prototype` member is a function (or, for the `__proto__` accessor,
the prototype object itself), hence also truthy; only a genuinely absent
key yields `undefined`, which is falsy. -/

/-- Names of the properties every plain object literal inherits from
`Object.prototype`, all of which bracket lookup finds (truthy) when the
object has no own property of that name. -/
def objectProtoNames : List String :=
  ["constructor", "hasOwnProperty", "isPrototypeOf", "propertyIsEnumerable",
   "toLocaleString", "toString", "valueOf", "__defineGetter__",
   "__defineSetter__", "__lookupGetter__", "__lookupSetter__", "__proto__"]

/-- A value stored into the handler's result record: either an own snapshot
entry (a translations record) or an inherited `Object.prototype` member
copied by the buggy truthiness test. -/
inductive JsValue (τ : Type) : Type
  | translations (v : τ)
  | protoMember (name : String)
deriving DecidableEq, Repr

/-- Embeds the body of the `get_wow_global_string_translations` tool
handler: iterate over the requested keys and, whenever
`if (clientGlobals[key])` finds a truthy value, copy it into the result.
An own snapshot entry is copied as a translations record.  When the key is
absent from the snapshot but names an `Object.prototype` member, the
lookup still finds that truthy inherited member and copies it (for
`__proto__` the assignment `result[key] = ...` triggers the prototype
setter and creates no own entry).  Only keys that are absent and not
prototype-member names are skipped.  The JS record assignment is modelled
as an append (a key requested twice is assigned the same value twice,
leaving the mapping unchanged). -/
def get_string_translations {τ : Type} (clientGlobals : String → Option τ)
    (globalKeys : List String) : List (String × JsValue τ) :=
  globalKeys.foldl (fun result key =>
    match clientGlobals key with
    | some v => result ++ [(key, .translations v)]
    | none =>
      if key ∈ objectProtoNames then
        if key = "__proto__" then result
        else result ++ [(key, .protoMember key)]
      else result) []

/-! ## Helper lemmas -/

theorem sfArriveAll_inflight {ρ : Type} (cs : List Nat) (ws : List Nat)
    (n : Nat) (resp : List (Nat × ρ)) :
    sfArriveAll cs ⟨some (.inflight ws), n, resp⟩ =
      ⟨some (.inflight (cs.reverse ++ ws)), n, resp⟩ := by
  induction cs generalizing ws with
  | nil => simp [sfArriveAll]
  | cons c cs ih =>
    show sfArriveAll cs (sfGet ⟨some (.inflight ws), n, resp⟩ c) = _
    rw [show sfGet (⟨some (.inflight ws), n, resp⟩ : SFState ρ) c =
      ⟨some (.inflight (c :: ws)), n, resp⟩ from rfl, ih]
    simp

/-! ## Claim theorems -/

/-- C1.  Refresh is atomic across partitions: if the fetch for any partition
fails during a refresh cycle, the whole cycle fails (the sequential
population short-circuits) and the previously published snapshot is retained
unchanged for every partition, with the failure recorded as the last
error. -/
theorem refresh_atomic_across_partitions {δ ε : Type} (st : CacheState δ ε)
    (fetch : GameFlavor → Except ε δ)
    (h : ∃ fl e, fetch fl = .error e) :
    (refreshCycle st fetch).current = st.current ∧
      (refreshCycle st fetch).lastError.isSome = true := by
  obtain ⟨fl, e, hfe⟩ := h
  have hpop : ∃ e2, populateAll fetch = .error e2 := by
    cases fl with
    | mainline => exact ⟨e, by simp [populateAll, hfe]⟩
    | mists =>
      cases hm : fetch GameFlavor.mainline with
      | error e1 => exact ⟨e1, by simp [populateAll, hm]⟩
      | ok m => exact ⟨e, by simp [populateAll, hm, hfe]⟩
    | vanilla =>
      cases hm : fetch GameFlavor.mainline with
      | error e1 => exact ⟨e1, by simp [populateAll, hm]⟩
      | ok m =>
        cases hmi : fetch GameFlavor.mists with
        | error e1 => exact ⟨e1, by simp [populateAll, hm, hmi]⟩
        | ok mi => exact ⟨e, by simp [populateAll, hm, hmi, hfe]⟩
  obtain ⟨e2, hp⟩ := hpop
  simp [refreshCycle, hp]

/-- C1 witness: a cycle in which `mainline` and `mists` succeed but
`vanilla` fails leaves the published snapshot exactly as it was. -/
theorem refresh_atomic_across_partitions_witness :
    (∃ fl e, fetchVanillaFails fl = .error e) ∧
      (refreshCycle prevState fetchVanillaFails).current =
        prevState.current :=
  ⟨⟨.vanilla, "boom", rfl⟩,
    (refresh_atomic_across_partitions prevState fetchVanillaFails
      ⟨.vanilla, "boom", rfl⟩).1⟩

/-- C2.  Single flight on the TTL page cache: when any nonempty batch of
concurrent `get` calls arrives while the key is unpopulated, the loader is
invoked exactly once, and once the in-flight load settles every caller has
received that one load's result (success or failure alike). -/
theorem single_flight_one_loader_call {ρ : Type} (cs : List Nat) (r : ρ)
    (success : Bool) (h : cs ≠ []) :
    (sfArriveAll cs (sfInit (ρ := ρ))).loaderCalls = 1 ∧
      (sfComplete (sfArriveAll cs (sfInit (ρ := ρ))) r success).loaderCalls
        = 1 ∧
      ∀ c ∈ cs,
        (c, r) ∈
          (sfComplete (sfArriveAll cs (sfInit (ρ := ρ))) r success).responses
    := by
  cases cs with
  | nil => exact absurd rfl h
  | cons c0 rest =>
    have harr : sfArriveAll (c0 :: rest) (sfInit (ρ := ρ)) =
        ⟨some (.inflight (rest.reverse ++ [c0])), 1, []⟩ := by
      show sfArriveAll rest (sfGet sfInit c0) = _
      rw [show sfGet (sfInit (ρ := ρ)) c0 =
        ⟨some (.inflight [c0]), 1, []⟩ from rfl]
      exact sfArriveAll_inflight rest [c0] 1 []
    rw [harr]
    refine ⟨rfl, ?_, ?_⟩
    · cases success <;> rfl
    · intro c hc
      have hmem : c ∈ rest.reverse ++ [c0] := by
        rcases List.mem_cons.1 hc with h0 | hr
        · simp [h0]
        · simp [hr]
      have : (c, r) ∈ (rest.reverse ++ [c0]).map fun c => (c, r) :=
        List.mem_map_of_mem _ hmem
      cases success <;>
        simpa [sfComplete] using this

/-- C2 witness: 50 concurrent `get` calls on the unpopulated key cause
exactly one loader invocation, and all 50 callers receive the result. -/
theorem single_flight_one_loader_call_witness :
    (sfArriveAll (List.range 50) (sfInit (ρ := Nat))).loaderCalls = 1 ∧
      (sfComplete (sfArriveAll (List.range 50) (sfInit (ρ := Nat))) 7
        true).loaderCalls = 1 ∧
      ∀ c ∈ List.range 50,
        (c, 7) ∈
          (sfComplete (sfArriveAll (List.range 50) (sfInit (ρ := Nat))) 7
            true).responses :=
  single_flight_one_loader_call (List.range 50) 7 true (by decide)

/-- C9.  Code bug at the failing input: requesting the single identifier
`toString` against a snapshot that does not contain it still produces an
entry — the truthy inherited `Object.prototype.toString` found by the
bracket lookup is copied into the result instead of the key being silently
omitted — while an ordinary unknown identifier is omitted as the claim
describes. -/
theorem proto_member_not_omitted :
    get_string_translations (τ := Nat) (fun _ => none) ["toString"] =
      [("toString", JsValue.protoMember "toString")] ∧
    get_string_translations (τ := Nat) (fun _ => none) ["NOT_A_KEY"] = []
    := by
  constructor <;> decide

theorem tokenizeAux_all_sep (l : List Char)
    (h : ∀ c ∈ l, isSepQ c = true) : tokenizeAux l [] = [] := by
  induction l with
  | nil => rfl
  | cons c cs ih =>
    have hc : isSepQ c = true := h c (List.mem_cons_self c cs)
    show tokenizeAux (c :: cs) [] = []
    rw [tokenizeAux]
    simp only [hc, if_true, List.isEmpty_nil]
    exact ih fun d hd => h d (List.mem_cons_of_mem c hd)

/-- C10.  A query consisting only of separator characters (whitespace, `|`,
`-`) — including the empty query — tokenizes to zero sub-queries, so the
merge loop (whose `Math.max` bound over an empty list is `-Infinity`)
performs no iterations, and the search succeeds with the empty result
list. -/
theorem separator_only_query_yields_empty (rank : String → List String)
    (query : String) (h : ∀ c ∈ query.data, isSepQ c = true) :
    searchApiNames rank query = [] := by
  have ht : tokenize query = [] := by
    unfold tokenize
    rw [tokenizeAux_all_sep query.data h]
    rfl
  simp [searchApiNames, ht, roundRobinMerge, maxLen]

/-- C10 witness: the query made only of spaces, `|` and `-` returns the
empty list. -/
theorem separator_only_query_yields_empty_witness :
    searchApiNames (fun q => [q, "GetItemInfo"]) " |  - -| " = [] :=
  separator_only_query_yields_empty _ " |  - -| " (by decide)

theorem rrInner_nodup {α : Type} [DecidableEq α] (lists : List (List α))
    (i : Nat) (acc : List α) (h : acc.Nodup) : (rrInner lists i acc).Nodup
    := by
  induction lists generalizing acc with
  | nil => exact h
  | cons l ls ih =>
    show ((l :: ls).foldl _ acc).Nodup
    rw [List.foldl_cons]
    apply ih
    cases hg : l.get? i with
    | none => simpa [hg] using h
    | some x =>
      by_cases hx : x ∈ acc
      · simpa [hg, hx] using h
      · simp only [hg, hx, if_false]
        rw [List.nodup_append]
        exact ⟨h, List.nodup_singleton x,
          fun a ha hax => hx (by simpa using (List.mem_singleton.1 hax ▸ ha))⟩

theorem roundRobinMerge_nodup {α : Type} [DecidableEq α]
    (lists : List (List α)) : (roundRobinMerge lists).Nodup := by
  have key : ∀ (is : List Nat) (acc : List α), acc.Nodup →
      (is.foldl (fun acc i => rrInner lists i acc) acc).Nodup := by
    intro is
    induction is with
    | nil => exact fun acc h => h
    | cons i is ih =>
      intro acc h
      rw [List.foldl_cons]
      exact ih _ (rrInner_nodup lists i acc h)
  exact key _ [] List.nodup_nil

/-- C6.  The multi-query search never emits a duplicate key and caps its
output at 100 entries, whatever the ranking of each sub-query returns and
however many sub-queries the raw query splits into. -/
theorem search_nodup_and_capped (rank : String → List String)
    (query : String) :
    (searchApiNames rank query).Nodup ∧
      (searchApiNames rank query).length ≤ 100 := by
  unfold searchApiNames
  constructor
  · exact (roundRobinMerge_nodup _).sublist (List.take_sublist _ _)
  · simp [List.length_take_le]

/-- C5.  Round-robin merge order: with sub-query A ranking `[x, y, z]` and
sub-query B ranking `[y, w]` (all four keys distinct), position 0 emits `x`
then `y`, position 1 skips the already-seen `y` and emits `w`, and position
2 emits `z`, so the merged output is exactly `[x, y, w, z]`. -/
theorem round_robin_merge_order {α : Type} [DecidableEq α] (x y z w : α)
    (hxy : x ≠ y) (hxz : x ≠ z) (hxw : x ≠ w) (hyz : y ≠ z) (hyw : y ≠ w)
    (hzw : z ≠ w) :
    roundRobinMerge [[x, y, z], [y, w]] = [x, y, w, z] := by
  have hmax : maxLen [[x, y, z], [y, w]] = 3 := by simp [maxLen]
  rw [roundRobinMerge, hmax]
  show List.foldl _ [] [0, 1, 2] = _
  simp [rrInner, hxy, hxz, hxw, hyz, hyw, hzw, Ne.symm hxy, Ne.symm hxz,
    Ne.symm hxw, Ne.symm hyz, Ne.symm hyw, Ne.symm hzw]

/-- C5 witness: the merge at four concrete distinct keys. -/
theorem round_robin_merge_order_witness :
    roundRobinMerge [["x", "y", "z"], ["y", "w"]] = ["x", "y", "w", "z"] :=
  round_robin_merge_order "x" "y" "z" "w" (by decide) (by decide)
    (by decide) (by decide) (by decide) (by decide)

/-- C3 counterexample: the normalizer does not lowercase the namespace, so
the claimed output `"c_questlog is quest flagged completed"` is not what
the code produces. -/
theorem normalize_example_not_lowercased :
    wordifyAPI "C_QuestLog.IsQuestFlaggedCompleted" ≠
      "c_questlog is quest flagged completed" := by
  decide

/-- C3 amended: normalizing `"C_QuestLog.IsQuestFlaggedCompleted"` returns
`"C_QuestLog is quest flagged completed"` — the namespace is kept with its
original casing (only the camelCase remainder is split into lowercase
space-separated words). -/
theorem normalize_example_value :
    wordifyAPI "C_QuestLog.IsQuestFlaggedCompleted" =
      "C_QuestLog is quest flagged completed" := by
  decide

/-- C4 counterexample: on `"a.b.c"` the normalizer returns `"a b"` — the
text after the second dot is dropped, not preserved as the claim's
`"a b c"` would require. -/
theorem split_limit_drops_tail :
    wordifyAPI "a.b.c" = "a b" ∧ wordifyAPI "a.b.c" ≠ "a b c" := by
  constructor <;> decide

theorem upToDot_eq_self (l : List Char) (h : ('.' : Char) ∉ l) :
    upToDot l = l :=
  List.takeWhile_eq_self_iff.2 fun c hc => by
    simpa using fun (he : c = '.') => h (by rw [← he]; exact hc)

theorem dropWhileDot_eq_nil (l : List Char) (h : ('.' : Char) ∉ l) :
    l.dropWhile (· ≠ '.') = [] := by
  have : ('.' : Char) ∉ l → l.dropWhile (· ≠ '.') = [] := by
    intro hn
    apply List.dropWhile_eq_nil_iff.2
    intro c hc
    simpa using fun (he : c = '.') => hn (by rw [← he]; exact hc)
  exact this h

theorem upToDot_append_dot (ns l : List Char) (h : ('.' : Char) ∉ ns) :
    upToDot (ns ++ '.' :: l) = ns := by
  induction ns with
  | nil => simp [upToDot]
  | cons c cs ih =>
    have hc : c ≠ '.' := fun he => h (he ▸ List.mem_cons_self c cs)
    have ih2 := ih fun hm => h (List.mem_cons_of_mem c hm)
    show List.takeWhile _ (c :: (cs ++ '.' :: l)) = c :: cs
    rw [List.takeWhile_cons, if_pos (by simpa using hc)]
    exact congrArg (c :: ·) ih2

theorem afterDot_append_dot (ns l : List Char) (h : ('.' : Char) ∉ ns) :
    afterDot (ns ++ '.' :: l) = some (upToDot l) := by
  induction ns with
  | nil => simp [afterDot]
  | cons c cs ih =>
    have hc : c ≠ '.' := fun he => h (he ▸ List.mem_cons_self c cs)
    have ih2 := ih fun hm => h (List.mem_cons_of_mem c hm)
    show afterDot (c :: (cs ++ '.' :: l)) = _
    rw [afterDot] at ih2 ⊢
    rw [List.dropWhile_cons, if_pos (by simpa using hc)]
    exact ih2

theorem afterDot_eq_none (l : List Char) (h : ('.' : Char) ∉ l) :
    afterDot l = none := by
  rw [afterDot, dropWhileDot_eq_nil l h]

/-- C4 amended: the normalizer takes everything before the first `.` as the
namespace, but — because `split(".", 2)` truncates rather than keeping the
rest — the remainder is only the text between the first and second dots:
everything from the second dot on is discarded.  Without any separator the
whole string is the remainder (word-split, with no namespace prefix). -/
theorem split_takes_first_two_parts :
    (∀ ns mid rest : String, ('.' : Char) ∉ ns.data →
      ('.' : Char) ∉ mid.data →
      wordifyAPI (ns ++ "." ++ mid ++ "." ++ rest) =
        wordifyAPI (ns ++ "." ++ mid)) ∧
    (∀ x : String, ('.' : Char) ∉ x.data →
      wordifyAPI x = ⟨toWords x.data⟩) := by
  constructor
  · intro ns mid rest hns hmid
    have hdata1 : (ns ++ "." ++ mid ++ "." ++ rest).data =
        ns.data ++ '.' :: (mid.data ++ '.' :: rest.data) := by
      simp [String.data_append]
    have hdata2 : (ns ++ "." ++ mid).data = ns.data ++ '.' :: mid.data := by
      simp [String.data_append]
    rw [wordifyAPI, wordifyAPI, hdata1, hdata2,
      afterDot_append_dot _ _ hns, afterDot_append_dot _ _ hns,
      upToDot_append_dot _ _ hns, upToDot_append_dot _ _ hns,
      upToDot_append_dot _ _ hmid, upToDot_eq_self _ hmid]
  · intro x hx
    rw [wordifyAPI, afterDot_eq_none _ hx, upToDot_eq_self _ hx]

/-- C4 amended witness: `"a.b.c"` and `"a.b"` normalize identically, and a
dot-free identifier is word-split with no namespace prefix. -/
theorem split_takes_first_two_parts_witness :
    wordifyAPI "a.b.c" = wordifyAPI "a.b" ∧
      wordifyAPI "GetItemInfo" = ⟨toWords "GetItemInfo".data⟩ :=
  ⟨split_takes_first_two_parts.1 "a" "b" "c" (by decide) (by decide),
    split_takes_first_two_parts.2 "GetItemInfo" (by decide)⟩

/-- C7 counterexample: normalization is not idempotent.  Normalizing
`"C_QuestLog.IsQuestFlaggedCompleted"` yields
`"C_QuestLog is quest flagged completed"`, and normalizing that once more
yields `"c quest log is quest flagged completed"` — the preserved namespace
is itself split on the second pass. -/
theorem normalize_not_idempotent :
    wordifyAPI (wordifyAPI "C_QuestLog.IsQuestFlaggedCompleted") ≠
      wordifyAPI "C_QuestLog.IsQuestFlaggedCompleted" := by
  decide

/-- C8 counterexample: the global-strings parser has no brace exclusion —
the line `T{1} = "v";` contains `{` and `}` yet contributes the entry
`T{1} ↦ v` to the mapping. -/
theorem brace_line_contributes_entry :
    ('{' ∈ "T\x7b1\x7d = \x22v\x22;".data) ∧
      gsMatchLine "T\x7b1\x7d = \x22v\x22;".data =
        some ("T\x7b1\x7d".data, "v".data) := by
  constructor <;> decide

theorem gsAfterKey_all_ws (l : List Char) (h : ∀ c ∈ l, jsWs c = true) :
    gsAfterKey l = none := by
  have hd : l.dropWhile jsWs = [] := List.dropWhile_eq_nil_iff.2 h
  rw [gsAfterKey, hd]

theorem gsKeyVal_all_ws (l : List Char) :
    ∀ acc, (∀ c ∈ l, jsWs c = true) → gsKeyVal acc l = none := by
  induction l with
  | nil => intro acc _; rfl
  | cons c rest ih =>
    intro acc h
    have hrest : ∀ d ∈ rest, jsWs d = true :=
      fun d hd => h d (List.mem_cons_of_mem c hd)
    by_cases hcr : c = '\r' ∨ c = '\n'
    · simp [gsKeyVal, hcr]
    · simp [gsKeyVal, hcr, gsAfterKey_all_ws rest hrest, ih (c :: acc) hrest]

theorem dropWhile_ws_all_ws (l : List Char) (h : ∀ c ∈ l, jsWs c = true) :
    l.dropWhile jsWs = [] :=
  List.dropWhile_eq_nil_iff.2 h

/-- C8 amended: the global-API parser ignores every line containing `{` or
`}` and every blank (all-whitespace) line, but requires only a double-quoted
word — not the full `IDENTIFIER = "VALUE"` form — to contribute an entry;
the global-strings parser ignores blank lines and any line its
`KEY = "VALUE"` regex rejects, but does not exclude brace-containing lines
(see the counterexample). -/
theorem parser_line_filters :
    (∀ line : List Char, ('{' ∈ line ∨ '}' ∈ line) →
      apiLineGlobal line = none) ∧
    (∀ line : List Char, (∀ c ∈ line, jsWs c = true) →
      apiLineGlobal line = none ∧ gsMatchLine line = none) ∧
    apiLineGlobal "x \x22Word\x22".data = some "Word".data := by
  refine ⟨?_, ?_, by decide⟩
  · intro line h
    simp only [apiLineGlobal]
    split
    · rfl
    · rename_i hneg
      rcases h with hm | hm
      · exact absurd (by simpa using ⟨'{', hm, Or.inl rfl⟩ :
          line.any (fun c => decide (c = '{' ∨ c = '}')) = true) hneg
      · exact absurd (by simpa using ⟨'}', hm, Or.inr rfl⟩ :
          line.any (fun c => decide (c = '{' ∨ c = '}')) = true) hneg
  · intro line h
    have htrim : trimWs line = [] := by
      rw [trimWs, dropWhile_ws_all_ws line h]
      rfl
    constructor
    · simp only [apiLineGlobal]
      split
      · rfl
      · rw [htrim]
        simp
    · rw [gsMatchLine.eq_def]
      split
      · rename_i rest
        exact absurd (h '_' (List.mem_cons_self _ _)) (by decide)
      · exact gsKeyVal_all_ws line [] h

/-- C8 amended witness: a lone brace line is skipped by the global-API
parser and a blank line produces no global-strings entry. -/
theorem parser_line_filters_witness :
    apiLineGlobal "\x7b".data = none ∧ gsMatchLine "  ".data = none :=
  ⟨parser_line_filters.1 _ (by decide),
    (parser_line_filters.2.1 _ (by decide)).2⟩

/-! ## Idempotence analysis of `toWords`

The lemmas below characterize the output of `toWords` — no ASCII capitals,
no dots or underscores, all whitespace reduced to single interior spaces —
and show that each stage of `toWords` fixes strings of that shape. -/

theorem char_ofNat_add32 (n : Nat) (h65 : 65 ≤ n) (h90 : n ≤ 90) :
    (Char.ofNat (n + 32)).toNat = n + 32 := by
  interval_cases n <;> decide

theorem jsToLower_toNat_upper (c : Char)
    (h : 65 ≤ c.toNat ∧ c.toNat ≤ 90) :
    (jsToLower c).toNat = c.toNat + 32 := by
  rw [jsToLower, if_pos h]
  exact char_ofNat_add32 c.toNat h.1 h.2

theorem isUpperA_false_iff (c : Char) :
    isUpperA c = false ↔ ¬(65 ≤ c.toNat ∧ c.toNat ≤ 90) := by
  simp [isUpperA]

theorem jsToLower_eq_self (c : Char) (h : isUpperA c = false) :
    jsToLower c = c := by
  rw [jsToLower, if_neg ((isUpperA_false_iff c).1 h)]

theorem isUpperA_jsToLower (c : Char) : isUpperA (jsToLower c) = false := by
  by_cases h : 65 ≤ c.toNat ∧ c.toNat ≤ 90
  · apply (isUpperA_false_iff _).2
    rw [jsToLower_toNat_upper c h]
    omega
  · rw [jsToLower, if_neg h]
    exact (isUpperA_false_iff c).2 h

theorem jsWs_of_toNat_lower (c : Char) (h1 : 65 ≤ c.toNat)
    (h2 : c.toNat ≤ 122) : jsWs c = false := by
  simp only [jsWs, Bool.or_eq_false_iff, decide_eq_false_iff_not,
    Bool.and_eq_false_iff, decide_eq_true_eq]
  omega

theorem jsWs_jsToLower (c : Char) : jsWs (jsToLower c) = jsWs c := by
  by_cases h : 65 ≤ c.toNat ∧ c.toNat ≤ 90
  · have ht := jsToLower_toNat_upper c h
    rw [jsWs_of_toNat_lower c h.1 (by omega),
      jsWs_of_toNat_lower (jsToLower c) (by omega) (by omega)]
  · rw [jsToLower, if_neg h]

theorem jsToLower_ne (c d : Char) (hd : d.toNat < 97 ∨ 122 < d.toNat)
    (h : c ≠ d) : jsToLower c ≠ d := by
  by_cases hu : 65 ≤ c.toNat ∧ c.toNat ≤ 90
  · intro he
    have hn := congrArg Char.toNat he
    rw [jsToLower_toNat_upper c hu] at hn
    omega
  · rw [jsToLower, if_neg hu]
    exact h

/-- No two adjacent whitespace characters. -/
def NoAdjWs : List Char → Prop
  | [] => True
  | [_] => True
  | a :: b :: l => ¬(jsWs a = true ∧ jsWs b = true) ∧ NoAdjWs (b :: l)

theorem noAdjWs_tail {a : Char} {l : List Char} (h : NoAdjWs (a :: l)) :
    NoAdjWs l := by
  cases l with
  | nil => trivial
  | cons b t => exact h.2

theorem noAdjWs_cons_of_not_ws {a : Char} {l : List Char}
    (ha : jsWs a = false) (h : NoAdjWs l) : NoAdjWs (a :: l) := by
  cases l with
  | nil => trivial
  | cons b t => exact ⟨fun hc => by simp [ha] at hc, h⟩

theorem noAdjWs_cons_of_head {a : Char} {l : List Char}
    (hh : ∀ d, l.head? = some d → ¬(jsWs a = true ∧ jsWs d = true))
    (h : NoAdjWs l) : NoAdjWs (a :: l) := by
  cases l with
  | nil => trivial
  | cons b t => exact ⟨hh b rfl, h⟩

theorem map_id_of_fix {f : Char → Char} :
    ∀ l : List Char, (∀ c ∈ l, f c = c) → l.map f = l := by
  intro l
  induction l with
  | nil => intro _; rfl
  | cons c cs ih =>
    intro h
    rw [List.map_cons, h c (List.mem_cons_self c cs),
      ih fun d hd => h d (List.mem_cons_of_mem c hd)]

theorem addCapsAux_eq_self (l : List Char)
    (h : ∀ c ∈ l, isUpperA c = false) : ∀ b, addCapsAux b l = l := by
  induction l with
  | nil => intro b; rfl
  | cons c cs ih =>
    intro b
    have hc := h c (List.mem_cons_self c cs)
    simp [addCapsAux, hc, ih fun d hd => h d (List.mem_cons_of_mem c hd)]

theorem collapseAux_eq_self :
    ∀ l : List Char, (∀ c ∈ l, jsWs c = true → c = ' ') → NoAdjWs l →
      collapseAux false l = l ∧
        ((∀ c, l.head? = some c → jsWs c = false) →
          collapseAux true l = l) := by
  intro l
  induction l with
  | nil => exact fun _ _ => ⟨rfl, fun _ => rfl⟩
  | cons c cs ih =>
    intro hws hadj
    have hws2 : ∀ d ∈ cs, jsWs d = true → d = ' ' :=
      fun d hd => hws d (List.mem_cons_of_mem c hd)
    have ih2 := ih hws2 (noAdjWs_tail hadj)
    by_cases hc : jsWs c = true
    · have hsp : c = ' ' := hws c (List.mem_cons_self c cs) hc
      have hheadcs : ∀ d, cs.head? = some d → jsWs d = false := by
        intro d hd
        cases cs with
        | nil => cases hd
        | cons e t =>
          have hde : e = d := by simpa using hd
          subst hde
          by_cases he : jsWs e = true
          · exact absurd ⟨hc, he⟩ hadj.1
          · revert he
            cases jsWs e <;> simp
      constructor
      · have hstep : collapseAux false (c :: cs) =
            ' ' :: collapseAux true cs := by
          simp [collapseAux, hc]
        rw [hstep, ih2.2 hheadcs, hsp]
      · intro hhead
        have := hhead c rfl
        rw [hc] at this
        exact Bool.noConfusion this
    · have hcf : jsWs c = false := by
        revert hc
        cases jsWs c <;> simp
      have hstep : ∀ b, collapseAux b (c :: cs) =
          c :: collapseAux false cs := by
        intro b
        simp [collapseAux, hcf]
      exact ⟨by rw [hstep, ih2.1], fun _ => by rw [hstep, ih2.1]⟩

theorem dropWhile_jsWs_eq_self (l : List Char)
    (h : ∀ c, l.head? = some c → jsWs c = false) :
    l.dropWhile jsWs = l := by
  cases l with
  | nil => rfl
  | cons c cs => rw [List.dropWhile_cons, if_neg (by simp [h c rfl])]

theorem dropTrailingWs_cons (c : Char) (cs : List Char) :
    dropTrailingWs (c :: cs) =
      match dropTrailingWs cs with
      | [] => if jsWs c then [] else [c]
      | rest => c :: rest := rfl

theorem dropTrailingWs_eq_self :
    ∀ l : List Char, (∀ c, l.getLast? = some c → jsWs c = false) →
      dropTrailingWs l = l := by
  intro l
  induction l with
  | nil => intro _; rfl
  | cons c cs ih =>
    intro h
    cases cs with
    | nil =>
      have hc : jsWs c = false := h c rfl
      simp [dropTrailingWs_cons, dropTrailingWs, hc]
    | cons d ds =>
      have hlast : ∀ e, (d :: ds).getLast? = some e → jsWs e = false :=
        fun e he => h e (by rw [List.getLast?_cons_cons]; exact he)
      rw [dropTrailingWs_cons, ih hlast]

theorem mem_dropWhile_ws :
    ∀ (l : List Char) (c : Char), c ∈ l.dropWhile jsWs → c ∈ l := by
  intro l c
  induction l with
  | nil => exact fun h => absurd h (List.not_mem_nil c)
  | cons d ds ih =>
    intro h
    rw [List.dropWhile_cons] at h
    by_cases hd : jsWs d = true
    · rw [if_pos hd] at h
      exact List.mem_cons_of_mem d (ih h)
    · rw [if_neg hd] at h
      exact h

theorem mem_dropTrailingWs :
    ∀ (l : List Char) (c : Char), c ∈ dropTrailingWs l → c ∈ l := by
  intro l
  induction l with
  | nil => exact fun c h => absurd h (List.not_mem_nil c)
  | cons d ds ih =>
    intro c h
    rw [dropTrailingWs_cons] at h
    cases hres : dropTrailingWs ds with
    | nil =>
      rw [hres] at h
      by_cases hd : jsWs d = true
      · rw [if_pos hd] at h
        exact absurd h (List.not_mem_nil c)
      · rw [if_neg hd] at h
        rcases List.mem_singleton.1 h with rfl
        exact List.mem_cons_self _ _
    | cons e es =>
      rw [hres] at h
      rcases List.mem_cons.1 h with rfl | hm
      · exact List.mem_cons_self _ _
      · exact List.mem_cons_of_mem d (ih c (by rw [hres]; exact hm))

theorem mem_collapseAux :
    ∀ (l : List Char) (b : Bool) (c : Char),
      c ∈ collapseAux b l → c = ' ' ∨ c ∈ l := by
  intro l
  induction l with
  | nil => exact fun b c h => absurd h (List.not_mem_nil c)
  | cons d ds ih =>
    intro b c h
    by_cases hd : jsWs d = true
    · cases b with
      | true =>
        have heq : collapseAux true (d :: ds) = collapseAux true ds := by
          simp [collapseAux, hd]
        rw [heq] at h
        rcases ih true c h with hs | hm
        · exact Or.inl hs
        · exact Or.inr (List.mem_cons_of_mem d hm)
      | false =>
        have heq : collapseAux false (d :: ds) =
            ' ' :: collapseAux true ds := by
          simp [collapseAux, hd]
        rw [heq] at h
        rcases List.mem_cons.1 h with rfl | hm
        · exact Or.inl rfl
        · rcases ih true c hm with hs | hm2
          · exact Or.inl hs
          · exact Or.inr (List.mem_cons_of_mem d hm2)
    · have hdf : jsWs d = false := by
        revert hd
        cases jsWs d <;> simp
      have heq : collapseAux b (d :: ds) = d :: collapseAux false ds := by
        simp [collapseAux, hdf]
      rw [heq] at h
      rcases List.mem_cons.1 h with rfl | hm
      · exact Or.inr (List.mem_cons_self _ _)
      · rcases ih false c hm with hs | hm2
        · exact Or.inl hs
        · exact Or.inr (List.mem_cons_of_mem d hm2)

theorem collapseAux_ws_space :
    ∀ (l : List Char) (b : Bool) (c : Char),
      c ∈ collapseAux b l → jsWs c = true → c = ' ' := by
  intro l
  induction l with
  | nil => exact fun b c h _ => absurd h (List.not_mem_nil c)
  | cons d ds ih =>
    intro b c h hws
    by_cases hd : jsWs d = true
    · cases b with
      | true =>
        have heq : collapseAux true (d :: ds) = collapseAux true ds := by
          simp [collapseAux, hd]
        rw [heq] at h
        exact ih true c h hws
      | false =>
        have heq : collapseAux false (d :: ds) =
            ' ' :: collapseAux true ds := by
          simp [collapseAux, hd]
        rw [heq] at h
        rcases List.mem_cons.1 h with rfl | hm
        · rfl
        · exact ih true c hm hws
    · have hdf : jsWs d = false := by
        revert hd
        cases jsWs d <;> simp
      have heq : collapseAux b (d :: ds) = d :: collapseAux false ds := by
        simp [collapseAux, hdf]
      rw [heq] at h
      rcases List.mem_cons.1 h with rfl | hm
      · rw [hws] at hdf
        exact Bool.noConfusion hdf
      · exact ih false c hm hws

theorem collapseAux_noAdj :
    ∀ (l : List Char) (b : Bool),
      NoAdjWs (collapseAux b l) ∧
        (b = true →
          ∀ c, (collapseAux b l).head? = some c → jsWs c = false) := by
  intro l
  induction l with
  | nil => exact fun b => ⟨trivial, fun _ c h => by cases h⟩
  | cons d ds ih =>
    intro b
    by_cases hd : jsWs d = true
    · cases b with
      | true =>
        have heq : collapseAux true (d :: ds) = collapseAux true ds := by
          simp [collapseAux, hd]
        exact ⟨heq ▸ (ih true).1,
          fun _ c h => (ih true).2 rfl c (by rw [← heq]; exact h)⟩
      | false =>
        have heq : collapseAux false (d :: ds) =
            ' ' :: collapseAux true ds := by
          simp [collapseAux, hd]
        refine ⟨?_, fun hb => Bool.noConfusion hb⟩
        rw [heq]
        apply noAdjWs_cons_of_head
        · intro e he hpair
          have := (ih true).2 rfl e he
          rw [hpair.2] at this
          exact Bool.noConfusion this
        · exact (ih true).1
    · have hdf : jsWs d = false := by
        revert hd
        cases jsWs d <;> simp
      have heq : collapseAux b (d :: ds) = d :: collapseAux false ds := by
        simp [collapseAux, hdf]
      constructor
      · rw [heq]
        exact noAdjWs_cons_of_not_ws hdf (ih false).1
      · intro _ c h
        rw [heq] at h
        have hdc : d = c := by simpa using h
        rw [← hdc]
        exact hdf

theorem noAdjWs_dropWhile (l : List Char) (h : NoAdjWs l) :
    NoAdjWs (l.dropWhile jsWs) := by
  induction l with
  | nil => exact trivial
  | cons c cs ih =>
    rw [List.dropWhile_cons]
    by_cases hc : jsWs c = true
    · rw [if_pos hc]
      exact ih (noAdjWs_tail h)
    · rw [if_neg hc]
      exact h

theorem head_dropWhile_jsWs :
    ∀ (l : List Char) (c : Char),
      (l.dropWhile jsWs).head? = some c → jsWs c = false := by
  intro l
  induction l with
  | nil => exact fun c h => by cases h
  | cons d ds ih =>
    intro c h
    rw [List.dropWhile_cons] at h
    by_cases hd : jsWs d = true
    · rw [if_pos hd] at h
      exact ih c h
    · rw [if_neg hd] at h
      have hdc : d = c := by simpa using h
      rw [← hdc]
      revert hd
      cases jsWs d <;> simp

theorem dropTrailingWs_head :
    ∀ l : List Char,
      dropTrailingWs l = [] ∨ (dropTrailingWs l).head? = l.head? := by
  intro l
  cases l with
  | nil => exact Or.inl rfl
  | cons c cs =>
    rw [dropTrailingWs_cons]
    cases hres : dropTrailingWs cs with
    | nil =>
      by_cases hc : jsWs c = true
      · exact Or.inl (by simp [hc])
      · exact Or.inr (by simp [hc])
    | cons e es => exact Or.inr rfl

theorem dropTrailingWs_getLast :
    ∀ (l : List Char) (c : Char),
      (dropTrailingWs l).getLast? = some c → jsWs c = false := by
  intro l
  induction l with
  | nil => exact fun c h => by cases h
  | cons d ds ih =>
    intro c h
    rw [dropTrailingWs_cons] at h
    cases hres : dropTrailingWs ds with
    | nil =>
      rw [hres] at h
      by_cases hd : jsWs d = true
      · rw [if_pos hd] at h
        cases h
      · rw [if_neg hd] at h
        have hdc : d = c := by simpa using h
        rw [← hdc]
        revert hd
        cases jsWs d <;> simp
    | cons e es =>
      rw [hres, List.getLast?_cons_cons] at h
      exact ih c (by rw [hres]; exact h)

theorem noAdjWs_dropTrailingWs :
    ∀ l : List Char, NoAdjWs l → NoAdjWs (dropTrailingWs l) := by
  intro l
  induction l with
  | nil => exact fun _ => trivial
  | cons c cs ih =>
    intro h
    rw [dropTrailingWs_cons]
    cases hres : dropTrailingWs cs with
    | nil =>
      by_cases hc : jsWs c = true
      · simp only [hc, if_true]
        trivial
      · simp only [hc, if_false]
        trivial
    | cons e es =>
      have hN : NoAdjWs (e :: es) := by
        rw [← hres]
        exact ih (noAdjWs_tail h)
      have hhead : cs.head? = some e := by
        rcases dropTrailingWs_head cs with hnil | hh
        · rw [hnil] at hres
          cases hres
        · rw [← hh, hres]
          rfl
      cases cs with
      | nil => cases hhead
      | cons f fs =>
        have hfe : f = e := by simpa using hhead
        subst hfe
        exact ⟨h.1, hN⟩

theorem noAdjWs_map_jsToLower :
    ∀ l : List Char, NoAdjWs l → NoAdjWs (l.map jsToLower) := by
  intro l
  induction l with
  | nil => exact fun _ => trivial
  | cons a t ih =>
    intro h
    cases t with
    | nil => trivial
    | cons b t2 =>
      refine ⟨?_, ih h.2⟩
      intro hp
      rw [jsWs_jsToLower, jsWs_jsToLower] at hp
      exact h.1 hp

theorem toWords_no_upper (l : List Char) :
    ∀ c ∈ toWords l, isUpperA c = false := by
  intro c hc
  rcases List.mem_map.1 hc with ⟨d, _, rfl⟩
  exact isUpperA_jsToLower d

theorem toWords_no_dot_underscore (l : List Char) :
    ∀ c ∈ toWords l, c ≠ '.' ∧ c ≠ '_' := by
  intro c hc
  rcases List.mem_map.1 hc with ⟨d, hd, rfl⟩
  have hd2 : d ∈ collapseWs (mapDots (addCaps l)) :=
    mem_dropWhile_ws _ d (mem_dropTrailingWs _ d hd)
  have hdn : d ≠ '.' ∧ d ≠ '_' := by
    rcases mem_collapseAux _ _ d hd2 with rfl | hm
    · exact ⟨by decide, by decide⟩
    · rcases List.mem_map.1 hm with ⟨e, _, rfl⟩
      by_cases he : e = '.' ∨ e = '_'
      · rw [if_pos he]
        exact ⟨by decide, by decide⟩
      · rw [if_neg he]
        exact ⟨fun h1 => he (Or.inl h1), fun h2 => he (Or.inr h2)⟩
  exact ⟨jsToLower_ne d '.' (Or.inl (by decide)) hdn.1,
    jsToLower_ne d '_' (Or.inl (by decide)) hdn.2⟩

theorem toWords_ws_space (l : List Char) :
    ∀ c ∈ toWords l, jsWs c = true → c = ' ' := by
  intro c hc hws
  rcases List.mem_map.1 hc with ⟨d, hd, rfl⟩
  rw [jsWs_jsToLower] at hws
  have hd2 : d ∈ collapseWs (mapDots (addCaps l)) :=
    mem_dropWhile_ws _ d (mem_dropTrailingWs _ d hd)
  have hds : d = ' ' := collapseAux_ws_space _ _ d hd2 hws
  rw [hds]
  decide

theorem toWords_noAdj (l : List Char) : NoAdjWs (toWords l) :=
  noAdjWs_map_jsToLower _ (noAdjWs_dropTrailingWs _
    (noAdjWs_dropWhile _ (collapseAux_noAdj _ false).1))

theorem toWords_head (l : List Char) :
    ∀ c, (toWords l).head? = some c → jsWs c = false := by
  intro c h
  rw [toWords, List.head?_map] at h
  rcases Option.map_eq_some'.1 h with ⟨d, hd, rfl⟩
  rw [jsWs_jsToLower]
  rcases dropTrailingWs_head
      ((collapseWs (mapDots (addCaps l))).dropWhile jsWs) with hnil | hh
  · rw [trimWs, hnil] at hd
    cases hd
  · rw [trimWs, hh] at hd
    exact head_dropWhile_jsWs _ d hd

theorem toWords_last (l : List Char) :
    ∀ c, (toWords l).getLast? = some c → jsWs c = false := by
  intro c h
  rw [toWords, List.getLast?_map] at h
  rcases Option.map_eq_some'.1 h with ⟨d, hd, rfl⟩
  rw [jsWs_jsToLower]
  rw [trimWs] at hd
  exact dropTrailingWs_getLast _ d hd

theorem toWords_idem (l : List Char) : toWords (toWords l) = toWords l := by
  have h1 : addCaps (toWords l) = toWords l :=
    addCapsAux_eq_self _ (toWords_no_upper l) false
  have h2 : mapDots (toWords l) = toWords l :=
    map_id_of_fix _ fun c hc => if_neg fun ho => by
      rcases ho with hdot | hund
      · exact (toWords_no_dot_underscore l c hc).1 hdot
      · exact (toWords_no_dot_underscore l c hc).2 hund
  have h3 : collapseWs (toWords l) = toWords l :=
    (collapseAux_eq_self _ (toWords_ws_space l) (toWords_noAdj l)).1
  have h4 : (toWords l).dropWhile jsWs = toWords l :=
    dropWhile_jsWs_eq_self _ (toWords_head l)
  have h5 : dropTrailingWs (toWords l) = toWords l :=
    dropTrailingWs_eq_self _ (toWords_last l)
  have h6 : (toWords l).map jsToLower = toWords l :=
    map_id_of_fix _ fun c hc => jsToLower_eq_self c (toWords_no_upper l c hc)
  show (trimWs (collapseWs (mapDots (addCaps (toWords l))))).map jsToLower
    = toWords l
  rw [h1, h2, h3, trimWs, h4, h5, h6]

theorem wordifyAPI_no_dot (x : String) (h : ('.' : Char) ∉ x.data) :
    wordifyAPI x = ⟨toWords x.data⟩ := by
  unfold wordifyAPI
  rw [afterDot_eq_none x.data h, upToDot_eq_self x.data h]

/-- C7 amended: normalization is idempotent exactly on the separator-free
side — for every identifier with no namespace separator `.`, normalizing
twice equals normalizing once; for namespaced identifiers idempotence fails
(the kept namespace is itself word-split by the second pass, see the
counterexample). -/
theorem normalize_idempotent_dotfree (x : String)
    (h : ('.' : Char) ∉ x.data) :
    wordifyAPI (wordifyAPI x) = wordifyAPI x := by
  have hy : ('.' : Char) ∉ (⟨toWords x.data⟩ : String).data :=
    fun hm => (toWords_no_dot_underscore x.data '.' hm).1 rfl
  rw [wordifyAPI_no_dot x h, wordifyAPI_no_dot _ hy]
  show (⟨toWords (toWords x.data)⟩ : String) = ⟨toWords x.data⟩
  rw [toWords_idem]

/-- C7 amended witness: a dot-free identifier normalizes idempotently. -/
theorem normalize_idempotent_dotfree_witness :
    wordifyAPI (wordifyAPI "IsQuestComplete") =
      wordifyAPI "IsQuestComplete" :=
  normalize_idempotent_dotfree "IsQuestComplete" (by decide)

end WowDevMcp
